import Mathlib

/-!
Verification of the n64bootloader repository (src/src/main.c and
src/util/size2bin.c) against its natural-language specification.

The C code is shallowly embedded: 32-bit unsigned machine arithmetic is
modelled over `Nat` with explicit `% 2^32` where overflow matters, byte
memory is a function `Nat → Nat`, and the boot sequence of `main` is a
small-step state machine.
-/

namespace N64Boot

/-! ### Data model -/

/-- Byte-addressed memory. -/
def Mem : Type := Nat → Nat

/-- One program-header table entry (`Elf32_Phdr`), fields as 32-bit values. -/
structure Phdr where
  p_type : Nat
  p_offset : Nat
  p_vaddr : Nat
  p_paddr : Nat
  p_filesz : Nat
  p_memsz : Nat
  p_flags : Nat
  p_align : Nat

/-- The external image base: the kernel image starts at ROM address
`0xB0101000` (src/src/main.c lines 206, 226, 231, 252). -/
def imageBase : Nat := 0xB0101000

/-! ### BootSizes (src/src/main.c line 187) -/

/-- `diskoff` as computed by `main` line 187: 32-bit unsigned evaluation of
`(kernelsize + 4095) & ~4095`; `~4095` as u32 is `0xFFFFF000`. -/
def diskoffOf (kernelsize : Nat) : Nat :=
  ((kernelsize + 4095) % 0x100000000) &&& 0xFFFFF000

/-! ### SegmentLoader (src/src/main.c lines 230-240) -/

/-- The DMA transfer length of line 232: `(p_filesz + 1) & ~1` in u32. -/
def dmaLenOf (filesz : Nat) : Nat :=
  ((filesz + 1) % 0x100000000) &&& 0xFFFFFFFE

/-- The cache writeback-invalidate length of line 233: `(p_filesz + 3) & ~3` in u32. -/
def cacheLenOf (filesz : Nat) : Nat :=
  ((filesz + 3) % 0x100000000) &&& 0xFFFFFFFC

/-- `dma_read(dest, src, len)`: bytes `[dest, dest+len)` now hold the ROM
bytes starting at `src`; all other memory is untouched. -/
def dmaRead (mem : Mem) (dest : Nat) (rom : Mem) (src : Nat) (len : Nat) : Mem :=
  fun a => if dest ≤ a ∧ a < dest + len then rom (src + (a - dest)) else mem a

/-- `memset(dest, 0, len)`. -/
def memset0 (mem : Mem) (dest len : Nat) : Mem :=
  fun a => if dest ≤ a ∧ a < dest + len then 0 else mem a

/-- Lines 231-240: DMA the file-backed bytes of the loadable segment to
`p_paddr`, then zero the region `[p_paddr + p_filesz, p_paddr + p_memsz)`
when `p_filesz < p_memsz`. (The cache operation of line 233 does not change
memory contents and is recorded separately in `loadOps`.) -/
def loadSegment (mem : Mem) (rom : Mem) (p : Phdr) : Mem :=
  let m1 := dmaRead mem p.p_paddr rom (imageBase + p.p_offset) (dmaLenOf p.p_filesz)
  if p.p_filesz < p.p_memsz then memset0 m1 (p.p_paddr + p.p_filesz) (p.p_memsz - p.p_filesz)
  else m1

/-- The address/length arguments of the two operations at lines 231-233. -/
structure LoadOps where
  dmaDest : Nat
  dmaSrc : Nat
  dmaCount : Nat
  cacheDest : Nat
  cacheCount : Nat

/-- The concrete operation arguments `main` passes at lines 231-233. -/
def loadOps (p : Phdr) : LoadOps :=
  { dmaDest := p.p_paddr
    dmaSrc := imageBase + p.p_offset
    dmaCount := dmaLenOf p.p_filesz
    cacheDest := p.p_paddr
    cacheCount := cacheLenOf p.p_filesz }

/-! ### ImageValidator (src/src/main.c lines 209-215) and the boot state
machine of `main` -/

/-- The ident-byte diagnostic of lines 209-212. -/
def notElfMsg : String := "Not an ELF kernel?"

/-- The class-byte diagnostic of lines 214-215. -/
def not32Msg : String := "Not a 32-bit kernel?"

/-- Lines 209-215: emit a diagnostic when ident bytes 1-3 differ from
`'E','L','F'` (codes 69, 76, 70), and another when ident byte `EI_CLASS = 4`
differs from `ELFCLASS32 = 1`. Nothing is emitted otherwise, and the checks
alter no state. -/
def validatorDiags (ident : Nat → Nat) : List String :=
  (if ident 1 ≠ 69 ∨ ident 2 ≠ 76 ∨ ident 3 ≠ 70 then [notElfMsg] else []) ++
  (if ident 4 ≠ 1 then [not32Msg] else [])

/-- The diagnostic of line 190. -/
def noKernelMsg : String := "No kernel configured"

/-- Environment of one boot attempt: the two size scalars DMA-read at lines
182/185, the header identification bytes, and the program-header table view
(`phdrTable i` is the `Elf32_Phdr` found at `hdrbuf + e_phoff + 32*i`). -/
structure BootEnv where
  kernelsize : Nat
  disksize : Nat
  ident : Nat → Nat
  phdrTable : Nat → Phdr

/-- Control points of `main` (spec §4.6 state machine). `locateSegment i`
is the scan of lines 218-220 with cursor at entry `i`; `halt` is the
`while (1);` of lines 192-193; `controlTransfer` is the terminal call at
line 272. -/
inductive BState where
  | readSizes
  | checkKernel
  | validateHeader
  | locateSegment (i : Nat)
  | loadSeg
  | writeMetadata
  | controlTransfer
  | halt
deriving DecidableEq

/-- One step of `main`'s control flow: sizes are read (lines 181-185), the
`!kernelsize` test of line 188 either halts or proceeds, validation (lines
209-215) never branches, the scan of lines 219-220 advances until
`p_type == 1`, then load, metadata write, and the never-returning transfer. -/
def bstep (e : BootEnv) : BState → BState
  | .readSizes => .checkKernel
  | .checkKernel => if e.kernelsize = 0 then .halt else .validateHeader
  | .validateHeader => .locateSegment 0
  | .locateSegment i =>
      if (e.phdrTable i).p_type = 1 then .loadSeg else .locateSegment (i + 1)
  | .loadSeg => .writeMetadata
  | .writeMetadata => .controlTransfer
  | .controlTransfer => .controlTransfer
  | .halt => .halt

/-- The machine after `n` steps from the size-read point. -/
def run (e : BootEnv) : Nat → BState
  | 0 => .readSizes
  | n + 1 => bstep e (run e n)

/-- Output of the `!kernelsize` check, lines 188-190: the diagnostic is
printed exactly when `kernelsize` is zero. -/
def checkKernelOut (e : BootEnv) : List String :=
  if e.kernelsize = 0 then [noKernelMsg] else []

/-- The scan of lines 218-220 (`while (phdr->p_type != 1) phdr++;`) as a
fueled loop: starting at entry `i`, return the index of the first entry
whose `p_type` is 1. `none` models fuel exhaustion only; the C loop is
unbounded. -/
def scanFrom (tbl : Nat → Phdr) : Nat → Nat → Option Nat
  | 0, _ => none
  | fuel + 1, i => if (tbl i).p_type = 1 then some i else scanFrom tbl fuel (i + 1)

/-! ### BootMetadataWriter (src/src/main.c lines 248-253) -/

/-- Little-endian decimal digits of `n` (`printf %u`), with explicit fuel so
the definition is structural; fuel `n` always suffices. -/
def toDigitsAux : Nat → Nat → List Nat
  | 0, _ => []
  | _ + 1, 0 => []
  | fuel + 1, n + 1 => ((n + 1) % 10) :: toDigitsAux fuel ((n + 1) / 10)

/-- Little-endian decimal digits of `n`; empty for `n = 0`. -/
def toDigitsLE (n : Nat) : List Nat := toDigitsAux n n

/-- Decimal digit string of `n`, most significant first, `"0"` for zero —
exactly what `sprintf %u` renders. -/
def decRepr (n : Nat) : List Nat :=
  if n = 0 then [0] else (toDigitsLE n).reverse

/-- ASCII bytes of the decimal rendering of `v` (digit `d` is byte `48 + d`). -/
def digitsBytes (v : Nat) : List Nat :=
  (decRepr v).map (fun d => d + 48)

/-- ASCII bytes of `"n64cart.start="` (the format prefix at line 252). -/
def startKey : List Nat :=
  [110, 54, 52, 99, 97, 114, 116, 46, 115, 116, 97, 114, 116, 61]

/-- ASCII bytes of `"n64cart.size="` (the format prefix at line 253). -/
def sizeKey : List Nat :=
  [110, 54, 52, 99, 97, 114, 116, 46, 115, 105, 122, 101, 61]

/-- The bytes `sprintf((char*)hdrbuf, "n64cart.start=%u", ...)` writes:
key, decimal digits, NUL. -/
def record1 (v : Nat) : List Nat := startKey ++ digitsBytes v ++ [0]

/-- The bytes `sprintf((char*)hdrbuf + 128, "n64cart.size=%u", ...)` writes. -/
def record2 (v : Nat) : List Nat := sizeKey ++ digitsBytes v ++ [0]

/-- Overlay the byte list `bs` on memory `m` starting at `off`. -/
def writeBytes (m : Mem) (off : Nat) (bs : List Nat) : Mem :=
  fun i => if off ≤ i ∧ i < off + bs.length then bs.getD (i - off) 0 else m i

/-- Lines 249-253: `memset(hdrbuf, 0, 256)`, then the start record at byte
offset 0 with value `0xB0101000 + diskoff` (u32 addition) and the size
record at byte offset 128 with value `disksize`. The result is the final
contents of `hdrbuf` (offset-indexed). -/
def metaBuf (dOff dSize : Nat) : Mem :=
  writeBytes
    (writeBytes (fun _ => 0) 0 (record1 ((imageBase + dOff) % 0x100000000)))
    128 (record2 (dSize % 0x100000000))

/-- Read a NUL-terminated byte string out of memory at `off` (fueled). -/
def readCString (buf : Mem) : Nat → Nat → List Nat
  | _, 0 => []
  | off, fuel + 1 => if buf off = 0 then [] else buf off :: readCString buf (off + 1) fuel

/-- Drop everything up to and including the first `'='` (byte 61). -/
def afterEq : List Nat → List Nat
  | [] => []
  | c :: rest => if c = 61 then rest else afterEq rest

/-- Parse an ASCII decimal byte string back to the integer it denotes. -/
def decValue (l : List Nat) : Nat :=
  l.foldl (fun a c => 10 * a + (c - 48)) 0

/-! ### ControlTransfer (src/src/main.c lines 147-153, 268-272) -/

/-- A C-string pointer in the fixed argument tables: a literal string, a
pointer into `hdrbuf` at a byte offset, or NULL. -/
inductive ArgPtr where
  | lit (s : String)
  | hdr (off : Nat)
  | null
deriving DecidableEq

/-- The fixed `args` table of lines 147-151. -/
def args : List ArgPtr :=
  [.lit "hello", .hdr 0, .hdr 128, .lit "root=/dev/n64cart"]

/-- The `env` table of line 153: a single NULL terminator. -/
def envTable : List ArgPtr := [.null]

/-- The four arguments of the kernel entry-point call. -/
structure KernelCall where
  argc : Nat
  argv : List ArgPtr
  envp : List ArgPtr
  reserved : ArgPtr

/-- The call of line 272:
`funcptr(sizeof(args) / sizeof(args[0]), args, env, NULL)`. -/
def controlTransferCall : KernelCall :=
  { argc := args.length
    argv := args
    envp := envTable
    reserved := .null }

/-! ### Build-time companion tool (src/util/size2bin.c) -/

/-- Line 22: `((st.st_size + 4095) & ~4095) + 1024*1024`, evaluated in
64-bit arithmetic (`~4095` as a 64-bit pattern is `2^64 - 4096`). -/
def paddedAllocSize (fileSize : Nat) : Nat :=
  (((fileSize + 4095) % 0x10000000000000000) &&& 0xFFFFFFFFFFFFF000) + 1048576

/-- `bswap_32`: reverse the four bytes of a 32-bit value. -/
def bswap32 (x : Nat) : Nat :=
  (x % 256) * 0x1000000 + (x / 0x100 % 256) * 0x10000 +
    (x / 0x10000 % 256) * 0x100 + x / 0x1000000 % 256

/-- The four bytes of a 32-bit value, least significant first (the memory
image `fwrite` emits on a little-endian build host). -/
def leBytes4 (x : Nat) : List Nat :=
  [x % 256, x / 0x100 % 256, x / 0x10000 % 256, x / 0x1000000 % 256]

/-- Lines 24-28: truncate the file size to `uint32_t`, byte-swap it, write
the resulting 4-byte object. -/
def sizeRecord (fileSize : Nat) : List Nat :=
  leBytes4 (bswap32 (fileSize % 0x100000000))

/-- Recombine a byte list big-endian (how a big-endian consumer, the N64,
reads the record back). -/
def beValue (bs : List Nat) : Nat :=
  bs.foldl (fun a b => 256 * a + b) 0

/-! ## Arithmetic core: masking with `~(2^b - 1)` rounds down to a multiple
of `2^b` -/

/-- For `n < 2^w` and `b ≤ w`, ANDing with the two's-complement mask
`2^w - 2^b` (the `w`-bit pattern of `~(2^b - 1)`) clears the low `b` bits:
the result is `2^b * (n / 2^b)`. -/
theorem and_mask_eq (w b n : Nat) (hbw : b ≤ w) (hn : n < 2 ^ w) :
    n &&& (2 ^ w - 2 ^ b) = 2 ^ b * (n / 2 ^ b) := by
  have hmask : 2 ^ w - 2 ^ b = (2 ^ (w - b) - 1) <<< b := by
    rw [Nat.shiftLeft_eq, Nat.sub_mul, one_mul, ← pow_add, Nat.sub_add_cancel hbw]
  have hrhs : 2 ^ b * (n / 2 ^ b) = (n >>> b) <<< b := by
    rw [Nat.shiftRight_eq_div_pow, Nat.shiftLeft_eq, Nat.mul_comm]
  rw [hmask, hrhs]
  apply Nat.eq_of_testBit_eq
  intro i
  rw [Nat.testBit_and, Nat.testBit_shiftLeft, Nat.testBit_shiftLeft,
    Nat.testBit_shiftRight, Nat.testBit_two_pow_sub_one]
  by_cases hbi : b ≤ i
  · have hadd : b + (i - b) = i := by omega
    rw [hadd]
    by_cases hiw : i < w
    · have hlt2 : i - b < w - b := by omega
      simp [hbi, hlt2]
    · have hset : n.testBit i = false := by
        apply Nat.testBit_lt_two_pow
        exact lt_of_lt_of_le hn (Nat.pow_le_pow_right (by norm_num) (by omega))
      simp [hset]
  · simp [hbi]

/-- Adding `2^b - 1` and masking with `~(2^b - 1)`, both in `w`-bit unsigned
arithmetic, rounds `k` up to the next multiple of `2^b` (modulo `2^w`). -/
theorem roundUpMask (w b k : Nat) (hbw : b ≤ w) (hk : k < 2 ^ w) :
    ((k + (2 ^ b - 1)) % 2 ^ w) &&& (2 ^ w - 2 ^ b) =
      (2 ^ b * ((k + (2 ^ b - 1)) / 2 ^ b)) % 2 ^ w := by
  have hb2 : 0 < 2 ^ b := Nat.pos_pow_of_pos b (by norm_num)
  have hbw2 : 2 ^ b ≤ 2 ^ w := Nat.pow_le_pow_right (by norm_num) hbw
  set s := k + (2 ^ b - 1) with hs
  by_cases hlt : s < 2 ^ w
  · rw [Nat.mod_eq_of_lt hlt, and_mask_eq w b s hbw hlt]
    have hle : 2 ^ b * (s / 2 ^ b) ≤ s := by
      rw [Nat.mul_comm]; exact Nat.div_mul_le_self s (2 ^ b)
    rw [Nat.mod_eq_of_lt (lt_of_le_of_lt hle hlt)]
  · have hslt : s < 2 ^ w + 2 ^ b := by omega
    have ht : s % 2 ^ w = s - 2 ^ w := by
      rw [Nat.mod_eq_sub_mod (by omega)]
      exact Nat.mod_eq_of_lt (by omega)
    have htlt : s - 2 ^ w < 2 ^ b := by omega
    rw [ht, and_mask_eq w b (s - 2 ^ w) hbw (lt_of_lt_of_le htlt hbw2)]
    rw [Nat.div_eq_of_lt htlt, Nat.mul_zero]
    have hdecomp : s = 2 ^ b * 2 ^ (w - b) + (s - 2 ^ w) := by
      rw [← pow_add, Nat.add_sub_cancel' hbw]; omega
    rw [hdecomp, Nat.mul_add_div hb2, Nat.div_eq_of_lt htlt, Nat.add_zero,
      Nat.mul_comm, ← pow_add, Nat.sub_add_cancel hbw, Nat.mod_self]

/-- The DMA length brackets the file size: `p_filesz ≤ (p_filesz+1) & ~1 ≤
p_filesz + 1` whenever `p_filesz + 1 < 2^32`. -/
theorem dmaLenOf_ge (filesz : Nat) (h : filesz + 1 < 2 ^ 32) :
    filesz ≤ dmaLenOf filesz ∧ dmaLenOf filesz ≤ filesz + 1 := by
  have h2 := roundUpMask 32 1 filesz (by norm_num) (by omega)
  have e1 : (2 : Nat) ^ 1 - 1 = 1 := by norm_num
  have e2 : (2 : Nat) ^ 32 - 2 ^ 1 = 0xFFFFFFFE := by norm_num
  have e3 : (2 : Nat) ^ 1 = 2 := by norm_num
  rw [e1, e2, e3] at h2
  have e4 : (2 : Nat) ^ 32 = 0x100000000 := by norm_num
  rw [e4] at h2
  have hlen : dmaLenOf filesz = (2 * ((filesz + 1) / 2)) % 0x100000000 := h2
  have hle : 2 * ((filesz + 1) / 2) ≤ filesz + 1 := by
    rw [Nat.mul_comm]; exact Nat.div_mul_le_self (filesz + 1) 2
  have hmod : (2 * ((filesz + 1) / 2)) % 0x100000000 = 2 * ((filesz + 1) / 2) :=
    Nat.mod_eq_of_lt (by omega)
  rw [hlen, hmod]
  constructor
  · omega
  · omega

/-! ## C2 -/

/-- C2: for every `kernelSize > 0` (a 32-bit value), `diskoffOf` — the code's
`(kernelsize + 4095) & ~4095` — equals `kernelSize` rounded up to the next
multiple of 4096, with the arithmetic carried out modulo `2^32`. -/
theorem diskoff_rounds_up_4k (k : Nat) (hk : k < 2 ^ 32) (_hpos : 0 < k) :
    diskoffOf k = (4096 * ((k + 4095) / 4096)) % 2 ^ 32 := by
  have h := roundUpMask 32 12 k (by norm_num) hk
  have h1 : (2 : Nat) ^ 12 - 1 = 4095 := by norm_num
  have h2 : (2 : Nat) ^ 32 - 2 ^ 12 = 0xFFFFF000 := by norm_num
  have h3 : (2 : Nat) ^ 12 = 4096 := by norm_num
  rw [h1, h2, h3] at h
  have h4 : (2 : Nat) ^ 32 = 0x100000000 := by norm_num
  rw [diskoffOf, h4] at *
  exact h

/-- Witness for C2: `kernelSize = 5000` yields `diskoff = 8192`. -/
theorem diskoff_rounds_up_4k_witness :
    5000 < 2 ^ 32 ∧ 0 < 5000 ∧ diskoffOf 5000 = (4096 * ((5000 + 4095) / 4096)) % 2 ^ 32 ∧
      diskoffOf 5000 = 8192 :=
  ⟨by norm_num, by norm_num, diskoff_rounds_up_4k 5000 (by norm_num) (by norm_num), by decide⟩

/-! ## C1 -/

/-- C1: after `loadSegment` on a segment with `p_filesz < p_memsz` (both
32-bit values), every byte of `[p_paddr + p_filesz, p_paddr + p_memsz)` is
zero, and every byte of `[p_paddr, p_paddr + p_filesz)` equals the segment's
file contents read from `imageBase + p_offset`. -/
theorem loadSegment_tail_zero (mem rom : Mem) (p : Phdr)
    (hfm : p.p_filesz < p.p_memsz) (hm : p.p_memsz < 2 ^ 32) :
    (∀ a, p.p_paddr + p.p_filesz ≤ a → a < p.p_paddr + p.p_memsz →
      loadSegment mem rom p a = 0) ∧
    (∀ a, p.p_paddr ≤ a → a < p.p_paddr + p.p_filesz →
      loadSegment mem rom p a = rom (imageBase + p.p_offset + (a - p.p_paddr))) := by
  have hlen := dmaLenOf_ge p.p_filesz (by omega)
  constructor
  · intro a ha1 ha2
    simp only [loadSegment, if_pos hfm, memset0]
    have : p.p_paddr + p.p_filesz ≤ a ∧ a < p.p_paddr + p.p_filesz + (p.p_memsz - p.p_filesz) := by
      omega
    simp [this]
  · intro a ha1 ha2
    simp only [loadSegment, if_pos hfm, memset0, dmaRead]
    have hnot : ¬(p.p_paddr + p.p_filesz ≤ a ∧
        a < p.p_paddr + p.p_filesz + (p.p_memsz - p.p_filesz)) := by omega
    rw [if_neg hnot]
    have hin : p.p_paddr ≤ a ∧ a < p.p_paddr + dmaLenOf p.p_filesz := by omega
    rw [if_pos hin]

/-- Witness for C1 at a concrete segment: `p_filesz = 2`, `p_memsz = 4`,
`p_paddr = 0x1000`; byte 3 of the target is zeroed, byte 0 holds the ROM
byte at `imageBase + p_offset`. -/
theorem loadSegment_tail_zero_witness :
    ((⟨1, 8, 0, 0x1000, 2, 4, 0, 0⟩ : Phdr).p_filesz < (⟨1, 8, 0, 0x1000, 2, 4, 0, 0⟩ : Phdr).p_memsz) ∧
    loadSegment (fun _ => 7) (fun a => a % 256) ⟨1, 8, 0, 0x1000, 2, 4, 0, 0⟩ 0x1003 = 0 ∧
    loadSegment (fun _ => 7) (fun a => a % 256) ⟨1, 8, 0, 0x1000, 2, 4, 0, 0⟩ 0x1000 =
      (imageBase + 8) % 256 :=
  ⟨by decide,
   (loadSegment_tail_zero (fun _ => 7) (fun a => a % 256) ⟨1, 8, 0, 0x1000, 2, 4, 0, 0⟩
      (by decide) (by norm_num)).1 0x1003 (by norm_num) (by norm_num),
   (loadSegment_tail_zero (fun _ => 7) (fun a => a % 256) ⟨1, 8, 0, 0x1000, 2, 4, 0, 0⟩
      (by decide) (by norm_num)).2 0x1000 (by norm_num) (by norm_num)⟩

/-! ## C6 -/

/-- C6: the transfer at line 231 reads exactly `(p_filesz + 1) & ~1` bytes —
`p_filesz` rounded up to a multiple of 2 in u32 — from
`imageBase + p_offset` to `p_paddr`, and the cache operation at line 233
covers exactly `(p_filesz + 3) & ~3` bytes — `p_filesz` rounded up to a
multiple of 4 — at the same destination. -/
theorem loadOps_rounded (p : Phdr) (hf : p.p_filesz < 2 ^ 32) :
    (loadOps p).dmaCount = (2 * ((p.p_filesz + 1) / 2)) % 2 ^ 32 ∧
    (loadOps p).cacheCount = (4 * ((p.p_filesz + 3) / 4)) % 2 ^ 32 ∧
    (loadOps p).dmaSrc = imageBase + p.p_offset ∧
    (loadOps p).dmaDest = p.p_paddr ∧
    (loadOps p).cacheDest = p.p_paddr := by
  refine ⟨?_, ?_, rfl, rfl, rfl⟩
  · have h2 := roundUpMask 32 1 p.p_filesz (by norm_num) hf
    have e1 : (2 : Nat) ^ 1 - 1 = 1 := by norm_num
    have e2 : (2 : Nat) ^ 32 - 2 ^ 1 = 0xFFFFFFFE := by norm_num
    have e3 : (2 : Nat) ^ 1 = 2 := by norm_num
    rw [e1, e2, e3] at h2
    have e4 : (2 : Nat) ^ 32 = 0x100000000 := by norm_num
    rw [e4] at h2 ⊢
    exact h2
  · have h2 := roundUpMask 32 2 p.p_filesz (by norm_num) hf
    have e1 : (2 : Nat) ^ 2 - 1 = 3 := by norm_num
    have e2 : (2 : Nat) ^ 32 - 2 ^ 2 = 0xFFFFFFFC := by norm_num
    have e3 : (2 : Nat) ^ 2 = 4 := by norm_num
    rw [e1, e2, e3] at h2
    have e4 : (2 : Nat) ^ 32 = 0x100000000 := by norm_num
    rw [e4] at h2 ⊢
    exact h2

/-- Witness for C6 at `p_filesz = 5`: the DMA moves 6 bytes and the cache
operation covers 8 bytes. -/
theorem loadOps_rounded_witness :
    ((⟨1, 0, 0, 0, 5, 0, 0, 0⟩ : Phdr).p_filesz < 2 ^ 32) ∧
    (loadOps ⟨1, 0, 0, 0, 5, 0, 0, 0⟩).dmaCount = (2 * ((5 + 1) / 2)) % 2 ^ 32 ∧
    (loadOps ⟨1, 0, 0, 0, 5, 0, 0, 0⟩).dmaCount = 6 ∧
    (loadOps ⟨1, 0, 0, 0, 5, 0, 0, 0⟩).cacheCount = 8 :=
  ⟨by norm_num, (loadOps_rounded ⟨1, 0, 0, 0, 5, 0, 0, 0⟩ (by norm_num)).1, by decide, by decide⟩

/-! ## C3 -/

/-- A non-halt state cannot step into `halt` unless `kernelsize = 0`. -/
theorem bstep_ne_halt (e : BootEnv) (hks : e.kernelsize ≠ 0) (s : BState)
    (hs : s ≠ .halt) : bstep e s ≠ .halt := by
  cases s with
  | checkKernel => simp only [bstep]; rw [if_neg hks]; simp
  | locateSegment i => simp only [bstep]; split <;> simp
  | halt => exact absurd rfl hs
  | _ => simp [bstep]

/-- C3: if the `kernelsize` scalar read from storage is 0, the check prints
its diagnostic and the machine is in `halt` from step 2 onward, never
reaching `controlTransfer`; conversely, any execution that ever reaches
`halt` had `kernelsize = 0` — `halt` is entered solely under this
condition. -/
theorem halt_iff_no_kernel (e : BootEnv) :
    (e.kernelsize = 0 →
      checkKernelOut e = [noKernelMsg] ∧
      (∀ n, run e n ≠ .controlTransfer) ∧ (∀ n, 2 ≤ n → run e n = .halt)) ∧
    ((∃ n, run e n = .halt) → e.kernelsize = 0) := by
  constructor
  · intro h0
    refine ⟨by simp [checkKernelOut, h0], ?_⟩
    have h2 : run e 2 = .halt := by
      show bstep e (bstep e (run e 0)) = .halt
      simp [run, bstep, h0]
    have hge : ∀ m, run e (2 + m) = .halt := by
      intro m
      induction m with
      | zero => exact h2
      | succ k ih =>
        show bstep e (run e (2 + k)) = .halt
        rw [ih]
        rfl
    have hh : ∀ n, 2 ≤ n → run e n = .halt := by
      intro n hn
      have := hge (n - 2)
      rwa [show 2 + (n - 2) = n by omega] at this
    refine ⟨?_, hh⟩
    intro n
    match n with
    | 0 => simp [run]
    | 1 => simp [run, bstep]
    | n + 2 =>
      rw [hh (n + 2) (by omega)]
      simp
  · rintro ⟨n, hn⟩
    by_contra hks
    suffices hall : ∀ m, run e m ≠ .halt from hall n hn
    intro m
    induction m with
    | zero => simp [run]
    | succ k ih => exact bstep_ne_halt e hks (run e k) ih

/-- Witness for C3 at the all-zero environment (`kernelsize = 0`): step 2 is
`halt`, step 9 is not `controlTransfer`. -/
theorem halt_iff_no_kernel_witness :
    run ⟨0, 0, fun _ => 0, fun _ => ⟨0, 0, 0, 0, 0, 0, 0, 0⟩⟩ 2 = BState.halt ∧
    run ⟨0, 0, fun _ => 0, fun _ => ⟨0, 0, 0, 0, 0, 0, 0, 0⟩⟩ 9 ≠ BState.controlTransfer ∧
    checkKernelOut ⟨0, 0, fun _ => 0, fun _ => ⟨0, 0, 0, 0, 0, 0, 0, 0⟩⟩ = [noKernelMsg] :=
  ⟨((halt_iff_no_kernel ⟨0, 0, fun _ => 0, fun _ => ⟨0, 0, 0, 0, 0, 0, 0, 0⟩⟩).1 rfl).2.2 2
      (by norm_num),
   ((halt_iff_no_kernel ⟨0, 0, fun _ => 0, fun _ => ⟨0, 0, 0, 0, 0, 0, 0, 0⟩⟩).1 rfl).2.1 9,
   ((halt_iff_no_kernel ⟨0, 0, fun _ => 0, fun _ => ⟨0, 0, 0, 0, 0, 0, 0, 0⟩⟩).1 rfl).1⟩

/-! ## C4 -/

/-- C4: the validator's checks are non-fatal. No diagnostic is emitted iff
ident bytes 1-3 are `'E','L','F'` and the class byte is `ELFCLASS32`; the
"not an ELF" diagnostic appears iff the magic bytes are wrong, the "not
32-bit" diagnostic iff the class byte is wrong; and in every environment the
validation state steps on to segment location unconditionally. -/
theorem validator_nonfatal (ident : Nat → Nat) :
    (validatorDiags ident = [] ↔
      ident 1 = 69 ∧ ident 2 = 76 ∧ ident 3 = 70 ∧ ident 4 = 1) ∧
    (notElfMsg ∈ validatorDiags ident ↔ ¬(ident 1 = 69 ∧ ident 2 = 76 ∧ ident 3 = 70)) ∧
    (not32Msg ∈ validatorDiags ident ↔ ident 4 ≠ 1) ∧
    (∀ e : BootEnv, bstep e .validateHeader = .locateSegment 0) := by
  have hne : notElfMsg ≠ not32Msg := by decide
  refine ⟨?_, ?_, ?_, fun e => rfl⟩ <;>
    by_cases hm : ident 1 ≠ 69 ∨ ident 2 ≠ 76 ∨ ident 3 ≠ 70 <;>
    by_cases hc : ident 4 ≠ 1 <;>
    simp [validatorDiags, hm, hc, hne, hne.symm] <;>
    tauto

/-- Witness for C4: with ident byte 1 = `'X'` (the spec's scenario
`{0x7f,'X','L','F',...}`, class byte correct), the "not an ELF" diagnostic
is emitted and the sequence still proceeds to segment location. -/
theorem validator_nonfatal_witness :
    notElfMsg ∈ validatorDiags
      (fun i => if i = 1 then 88 else if i = 2 then 76 else if i = 3 then 70 else 1) ∧
    bstep ⟨1, 0, fun _ => 0, fun _ => ⟨0, 0, 0, 0, 0, 0, 0, 0⟩⟩ .validateHeader =
      .locateSegment 0 :=
  ⟨(validator_nonfatal
      (fun i => if i = 1 then 88 else if i = 2 then 76 else if i = 3 then 70 else 1)).2.1.mpr
      (by decide),
   (validator_nonfatal (fun _ => 0)).2.2.2 ⟨1, 0, fun _ => 0, fun _ => ⟨0, 0, 0, 0, 0, 0, 0, 0⟩⟩⟩

/-! ## C5 -/

/-- The fueled scan finds the least loadable index at or after its cursor. -/
theorem scanFrom_reaches (tbl : Nat → Phdr) :
    ∀ (fuel i j : Nat), i ≤ j → j < i + fuel → (tbl j).p_type = 1 →
      (∀ k, i ≤ k → k < j → (tbl k).p_type ≠ 1) →
      scanFrom tbl fuel i = some j := by
  intro fuel
  induction fuel with
  | zero => intro i j h1 h2 _ _; omega
  | succ f ih =>
    intro i j h1 h2 hj hmin
    simp only [scanFrom]
    by_cases hi : (tbl i).p_type = 1
    · have hij : i = j := by
        rcases Nat.lt_or_ge i j with h | h
        · exact absurd hi (hmin i le_rfl h)
        · omega
      rw [if_pos hi, hij]
    · rw [if_neg hi]
      have hij : i ≠ j := fun h => hi (h ▸ hj)
      exact ih (i + 1) j (by omega) (by omega) hj (fun k hk1 hk2 => hmin k (by omega) hk2)

/-- C5: the segment scan of lines 218-220 is a linear search from index 0.
If `j` is the smallest index whose `p_type` is the loadable constant 1, the
scan returns `j` (for any sufficient fuel), and the result is unchanged
under any modification of the table entries beyond index `j` — entries
after the first match are never consulted. -/
theorem scan_first_loadable (tbl : Nat → Phdr) (j : Nat)
    (hj : (tbl j).p_type = 1) (hmin : ∀ k, k < j → (tbl k).p_type ≠ 1) :
    scanFrom tbl (j + 1) 0 = some j ∧
    (∀ fuel, j < fuel → scanFrom tbl fuel 0 = some j) ∧
    (∀ tbl2 : Nat → Phdr, (∀ k, k ≤ j → tbl2 k = tbl k) →
      scanFrom tbl2 (j + 1) 0 = some j) := by
  refine ⟨?_, ?_, ?_⟩
  · exact scanFrom_reaches tbl (j + 1) 0 j (Nat.zero_le j) (by omega) hj
      (fun k _ hk => hmin k hk)
  · intro fuel hf
    exact scanFrom_reaches tbl fuel 0 j (Nat.zero_le j) (by omega) hj
      (fun k _ hk => hmin k hk)
  · intro tbl2 hagree
    apply scanFrom_reaches tbl2 (j + 1) 0 j (Nat.zero_le j) (by omega)
    · rw [hagree j le_rfl]; exact hj
    · intro k _ hk
      rw [hagree k (by omega)]
      exact hmin k hk

/-- Witness for C5: in a table whose first loadable entry sits at index 2,
the scan returns index 2. -/
theorem scan_first_loadable_witness :
    ((fun k => if k = 2 then (⟨1, 0, 0, 0, 0, 0, 0, 0⟩ : Phdr)
        else ⟨0, 0, 0, 0, 0, 0, 0, 0⟩) 2).p_type = 1 ∧
    scanFrom (fun k => if k = 2 then (⟨1, 0, 0, 0, 0, 0, 0, 0⟩ : Phdr)
        else ⟨0, 0, 0, 0, 0, 0, 0, 0⟩) 3 0 = some 2 :=
  ⟨by decide,
   (scan_first_loadable
      (fun k => if k = 2 then (⟨1, 0, 0, 0, 0, 0, 0, 0⟩ : Phdr)
        else ⟨0, 0, 0, 0, 0, 0, 0, 0⟩) 2 (by decide)
      (by intro k hk; interval_cases k <;> decide)).1⟩

/-! ## Decimal rendering: helper lemmas -/

/-- Folding the little-endian digits back up recovers the number. -/
theorem toDigitsAux_foldr : ∀ fuel n, n ≤ fuel →
    (toDigitsAux fuel n).foldr (fun d a => 10 * a + d) 0 = n := by
  intro fuel
  induction fuel with
  | zero =>
    intro n h
    have hn : n = 0 := by omega
    subst hn; rfl
  | succ f ih =>
    intro n h
    match n with
    | 0 => rfl
    | m + 1 =>
      simp only [toDigitsAux, List.foldr]
      rw [ih ((m + 1) / 10) (by omega)]
      omega

/-- Every rendered digit is below 10. -/
theorem toDigitsAux_digit_lt : ∀ fuel n d, d ∈ toDigitsAux fuel n → d < 10 := by
  intro fuel
  induction fuel with
  | zero => intro n d h; simp [toDigitsAux] at h
  | succ f ih =>
    intro n d h
    match n with
    | 0 => simp [toDigitsAux] at h
    | m + 1 =>
      simp only [toDigitsAux, List.mem_cons] at h
      rcases h with h | h
      · omega
      · exact ih _ _ h

/-- A number below `10^k` renders to at most `k` digits. -/
theorem toDigitsAux_length : ∀ fuel n k, n ≤ fuel → n < 10 ^ k →
    (toDigitsAux fuel n).length ≤ k := by
  intro fuel
  induction fuel with
  | zero =>
    intro n k h _
    have hn : n = 0 := by omega
    subst hn; simp [toDigitsAux]
  | succ f ih =>
    intro n k h hk
    match n with
    | 0 => simp [toDigitsAux]
    | m + 1 =>
      match k with
      | 0 => simp [pow_zero] at hk
      | k + 1 =>
        simp only [toDigitsAux, List.length_cons]
        have hdiv : (m + 1) / 10 < 10 ^ k := by
          rw [Nat.div_lt_iff_lt_mul (by norm_num)]
          calc m + 1 < 10 ^ (k + 1) := hk
            _ = 10 ^ k * 10 := by rw [pow_succ]
        have := ih ((m + 1) / 10) k (by omega) hdiv
        omega

/-- Reading `decRepr` most-significant-first recovers the number. -/
theorem decRepr_foldl (n : Nat) :
    (decRepr n).foldl (fun a d => 10 * a + d) 0 = n := by
  unfold decRepr toDigitsLE
  split
  · simp [*]
  · rw [List.foldl_reverse]
    exact toDigitsAux_foldr n n le_rfl

/-- `decRepr n` has at most `k` digits when `n < 10^k` (`k > 0`). -/
theorem decRepr_length (n k : Nat) (hk : n < 10 ^ k) (h0 : 0 < k) :
    (decRepr n).length ≤ k := by
  unfold decRepr toDigitsLE
  split
  · simpa
  · rw [List.length_reverse]
    exact toDigitsAux_length n n k le_rfl hk

/-- Every digit of `decRepr` is below 10. -/
theorem decRepr_digit_lt (n d : Nat) (h : d ∈ decRepr n) : d < 10 := by
  unfold decRepr toDigitsLE at h
  split at h
  · simp at h; omega
  · exact toDigitsAux_digit_lt n n d (List.mem_reverse.mp h)

/-- Parsing the ASCII decimal rendering of `v` recovers `v`. -/
theorem decValue_digitsBytes (v : Nat) : decValue (digitsBytes v) = v := by
  unfold decValue digitsBytes
  have hmap : ∀ (l : List Nat) (a : Nat),
      List.foldl (fun a c => 10 * a + (c - 48)) a (l.map (fun d => d + 48)) =
      List.foldl (fun a d => 10 * a + d) a l := by
    intro l
    induction l with
    | nil => intro a; rfl
    | cons d rest ih =>
      intro a
      simp only [List.map_cons, List.foldl_cons, Nat.add_sub_cancel]
      exact ih _
  rw [hmap]
  exact decRepr_foldl v

/-- A 32-bit value renders to at most 10 ASCII digits. -/
theorem digitsBytes_length (v : Nat) (hv : v < 2 ^ 32) :
    (digitsBytes v).length ≤ 10 := by
  unfold digitsBytes
  rw [List.length_map]
  exact decRepr_length v 10 (lt_trans hv (by norm_num)) (by norm_num)

/-- No ASCII digit byte is the NUL terminator. -/
theorem digitsBytes_ne_zero (v c : Nat) (h : c ∈ digitsBytes v) : c ≠ 0 := by
  unfold digitsBytes at h
  rcases List.mem_map.mp h with ⟨d, _, rfl⟩
  omega

/-- The start record is at most 25 bytes (14-byte key, ≤ 10 digits, NUL). -/
theorem record1_length (v : Nat) (hv : v < 2 ^ 32) : (record1 v).length ≤ 25 := by
  unfold record1
  have h1 : startKey.length = 14 := rfl
  have h2 := digitsBytes_length v hv
  simp only [List.length_append, List.length_cons, List.length_nil]
  omega

/-- The size record is at most 24 bytes (13-byte key, ≤ 10 digits, NUL). -/
theorem record2_length (v : Nat) (hv : v < 2 ^ 32) : (record2 v).length ≤ 24 := by
  unfold record2
  have h1 : sizeKey.length = 13 := rfl
  have h2 := digitsBytes_length v hv
  simp only [List.length_append, List.length_cons, List.length_nil]
  omega

/-- No byte of a record body (before the NUL) is zero. -/
theorem record1_body_ne_zero (v c : Nat) (h : c ∈ startKey ++ digitsBytes v) :
    c ≠ 0 := by
  rcases List.mem_append.mp h with h | h
  · simp [startKey] at h; omega
  · exact digitsBytes_ne_zero v c h

/-- No byte of the size-record body (before the NUL) is zero. -/
theorem record2_body_ne_zero (v c : Nat) (h : c ∈ sizeKey ++ digitsBytes v) :
    c ≠ 0 := by
  rcases List.mem_append.mp h with h | h
  · simp [sizeKey] at h; omega
  · exact digitsBytes_ne_zero v c h

/-- `afterEq` strips the start key (whose single `'='` is its last byte). -/
theorem afterEq_startKey (t : List Nat) : afterEq (startKey ++ t) = t := rfl

/-- `afterEq` strips the size key. -/
theorem afterEq_sizeKey (t : List Nat) : afterEq (sizeKey ++ t) = t := rfl

/-- `readCString` returns exactly the NUL-free byte list laid out at `off`
and terminated by a zero byte, given enough fuel. -/
theorem readCString_eq (l : List Nat) (hnz : ∀ c ∈ l, c ≠ 0) :
    ∀ (buf : Mem) (off fuel : Nat),
      (∀ j, j < l.length → buf (off + j) = l.getD j 0) →
      buf (off + l.length) = 0 → l.length < fuel →
      readCString buf off fuel = l := by
  induction l with
  | nil =>
    intro buf off fuel _ hz hf
    match fuel, hf with
    | f + 1, _ =>
      simp only [readCString]
      rw [if_pos (by simpa using hz)]
  | cons c rest ih =>
    intro buf off fuel hj hz hf
    match fuel, hf with
    | f + 1, hf =>
      simp only [readCString]
      have hc : buf off = c := by simpa using hj 0 (by simp)
      rw [hc, if_neg (hnz c (List.mem_cons_self c rest))]
      congr 1
      apply ih (fun d hd => hnz d (List.mem_cons_of_mem _ hd)) buf (off + 1) f
      · intro j hjlt
        have := hj (j + 1) (by simpa using Nat.succ_lt_succ hjlt)
        rw [show off + (j + 1) = off + 1 + j by omega] at this
        simpa using this
      · rw [show off + 1 + rest.length = off + (c :: rest).length by simp; omega]
        exact hz
      · simp only [List.length_cons] at hf
        omega

/-- `metaBuf` below offset 128 is the start record padded with zeros. -/
theorem metaBuf_lo (dOff dSize i : Nat) (hi : i < 128) :
    metaBuf dOff dSize i =
      if i < (record1 ((imageBase + dOff) % 0x100000000)).length
      then (record1 ((imageBase + dOff) % 0x100000000)).getD i 0 else 0 := by
  unfold metaBuf writeBytes
  rw [if_neg (by omega)]
  by_cases h : i < (record1 ((imageBase + dOff) % 0x100000000)).length
  · rw [if_pos ⟨Nat.zero_le i, by omega⟩, if_pos h, Nat.sub_zero]
  · rw [if_neg (by omega), if_neg h]

/-- `metaBuf` at offset 128 and beyond is the size record padded with zeros,
provided the start record stays below offset 128. -/
theorem metaBuf_hi (dOff dSize i : Nat) (hi : 128 ≤ i)
    (hlen1 : (record1 ((imageBase + dOff) % 0x100000000)).length ≤ 128) :
    metaBuf dOff dSize i =
      if i < 128 + (record2 (dSize % 0x100000000)).length
      then (record2 (dSize % 0x100000000)).getD (i - 128) 0 else 0 := by
  unfold metaBuf writeBytes
  by_cases h : i < 128 + (record2 (dSize % 0x100000000)).length
  · rw [if_pos ⟨hi, h⟩, if_pos h]
  · rw [if_neg (by omega), if_neg h, if_neg (by omega)]

/-! ## C7 -/

/-- C7: `BootMetadataWriter` leaves, at byte offsets 0 and 128 of the
cleared 256-byte buffer, the NUL-terminated records
`"n64cart.start=<decimal>"` (value `imageBase + diskOffset`, the addition
performed on 32-bit unsigned values as at line 252) and
`"n64cart.size=<decimal>"` (value `diskSize`), and for every `diskOffset`
and 32-bit `diskSize`, parsing the decimal numbers back out of the two
records recovers exactly the encoded integers. -/
theorem metadata_roundtrip (dOff dSize : Nat) (h2 : dSize < 2 ^ 32) :
    readCString (metaBuf dOff dSize) 0 256 =
      startKey ++ digitsBytes ((imageBase + dOff) % 2 ^ 32) ∧
    readCString (metaBuf dOff dSize) 128 256 = sizeKey ++ digitsBytes dSize ∧
    decValue (afterEq (readCString (metaBuf dOff dSize) 0 256)) =
      (imageBase + dOff) % 2 ^ 32 ∧
    decValue (afterEq (readCString (metaBuf dOff dSize) 128 256)) = dSize := by
  have e32 : (2 : Nat) ^ 32 = 0x100000000 := by norm_num
  rw [e32]
  have hv1 : (imageBase + dOff) % 0x100000000 < 2 ^ 32 := by
    rw [e32]; exact Nat.mod_lt _ (by norm_num)
  have hv2 : dSize % 0x100000000 = dSize := by omega
  have hr2 : record2 (dSize % 0x100000000) = record2 dSize := by rw [hv2]
  have hd1 := digitsBytes_length ((imageBase + dOff) % 0x100000000) hv1
  have hd2 := digitsBytes_length dSize h2
  have hsk : startKey.length = 14 := rfl
  have hzk : sizeKey.length = 13 := rfl
  have hl1 : (startKey ++ digitsBytes ((imageBase + dOff) % 0x100000000)).length ≤ 24 := by
    simp only [List.length_append]; omega
  have hl2 : (sizeKey ++ digitsBytes dSize).length ≤ 23 := by
    simp only [List.length_append]; omega
  have hrec1 : record1 ((imageBase + dOff) % 0x100000000) =
      (startKey ++ digitsBytes ((imageBase + dOff) % 0x100000000)) ++ [0] := by
    unfold record1; rw [List.append_assoc]
  have hrec2 : record2 dSize = (sizeKey ++ digitsBytes dSize) ++ [0] := by
    unfold record2; rw [List.append_assoc]
  have hlen1 : (record1 ((imageBase + dOff) % 0x100000000)).length =
      (startKey ++ digitsBytes ((imageBase + dOff) % 0x100000000)).length + 1 := by
    rw [hrec1]; simp only [List.length_append, List.length_cons, List.length_nil]
  have hlen2 : (record2 dSize).length = (sizeKey ++ digitsBytes dSize).length + 1 := by
    rw [hrec2]; simp only [List.length_append, List.length_cons, List.length_nil]
  have hA : readCString (metaBuf dOff dSize) 0 256 =
      startKey ++ digitsBytes ((imageBase + dOff) % 0x100000000) := by
    apply readCString_eq _ (record1_body_ne_zero ((imageBase + dOff) % 0x100000000))
    · intro j hj
      rw [Nat.zero_add, metaBuf_lo dOff dSize j (by omega),
        if_pos (by omega), hrec1, List.getD_append _ _ _ _ hj]
    · rw [Nat.zero_add, metaBuf_lo dOff dSize _ (by omega), if_pos (by omega),
        hrec1, List.getD_append_right _ _ _ _ le_rfl, Nat.sub_self]
      rfl
    · omega
  have hB : readCString (metaBuf dOff dSize) 128 256 = sizeKey ++ digitsBytes dSize := by
    apply readCString_eq _ (record2_body_ne_zero dSize)
    · intro j hj
      rw [metaBuf_hi dOff dSize (128 + j) (by omega) (by rw [hlen1]; omega), hr2,
        if_pos (by omega), Nat.add_sub_cancel_left, hrec2, List.getD_append _ _ _ _ hj]
    · rw [metaBuf_hi dOff dSize _ (by omega) (by rw [hlen1]; omega), hr2,
        if_pos (by omega), Nat.add_sub_cancel_left, hrec2,
        List.getD_append_right _ _ _ _ le_rfl, Nat.sub_self]
      rfl
    · omega
  refine ⟨hA, hB, ?_, ?_⟩
  · rw [hA, afterEq_startKey, decValue_digitsBytes]
  · rw [hB, afterEq_sizeKey, decValue_digitsBytes]

/-- Witness for C7 at the spec's example `diskOffset = 8192`,
`diskSize = 65536`: both records parse back to the encoded integers. -/
theorem metadata_roundtrip_witness :
    (65536 : Nat) < 2 ^ 32 ∧
    decValue (afterEq (readCString (metaBuf 8192 65536) 0 256)) = imageBase + 8192 ∧
    decValue (afterEq (readCString (metaBuf 8192 65536) 128 256)) = 65536 := by
  have h := metadata_roundtrip 8192 65536 (by norm_num)
  refine ⟨by norm_num, ?_, h.2.2.2⟩
  rw [h.2.2.1]
  norm_num [imageBase]

/-! ## C10 -/

/-- C10: for every 32-bit `diskOffset` and `diskSize`, the start record
occupies at most 25 bytes, the size record at most 24, so the records never
collide (the first never reaches offset 128) and both fit in the 256-byte
buffer; and every byte outside the two records is zero after the writer
runs. -/
theorem metadata_frame (dOff dSize : Nat) (_hO : dOff < 2 ^ 32) (_hS : dSize < 2 ^ 32) :
    (record1 ((imageBase + dOff) % 0x100000000)).length ≤ 25 ∧
    (record2 (dSize % 0x100000000)).length ≤ 24 ∧
    128 + (record2 (dSize % 0x100000000)).length ≤ 256 ∧
    (∀ i, (record1 ((imageBase + dOff) % 0x100000000)).length ≤ i → i < 128 →
      metaBuf dOff dSize i = 0) ∧
    (∀ i, 128 + (record2 (dSize % 0x100000000)).length ≤ i →
      metaBuf dOff dSize i = 0) := by
  have e32 : (0x100000000 : Nat) = 2 ^ 32 := by norm_num
  have hm1 : (imageBase + dOff) % 0x100000000 < 2 ^ 32 := by
    rw [e32]; exact Nat.mod_lt _ (by norm_num)
  have hm2 : dSize % 0x100000000 < 2 ^ 32 := by
    rw [e32]; exact Nat.mod_lt _ (by norm_num)
  have hL1 := record1_length _ hm1
  have hL2 := record2_length _ hm2
  refine ⟨hL1, hL2, by omega, ?_, ?_⟩
  · intro i hge hlt
    rw [metaBuf_lo dOff dSize i hlt, if_neg (by omega)]
  · intro i hge
    rw [metaBuf_hi dOff dSize i (by omega) (by omega), if_neg (by omega)]

/-- Witness for C10 at `diskOffset = 8192`, `diskSize = 65536`: the start
record fits in 25 bytes and the buffer is zero at offsets 100 and 200. -/
theorem metadata_frame_witness :
    (record1 ((imageBase + 8192) % 0x100000000)).length ≤ 25 ∧
    metaBuf 8192 65536 100 = 0 ∧ metaBuf 8192 65536 200 = 0 := by
  have h := metadata_frame 8192 65536 (by norm_num) (by norm_num)
  exact ⟨h.1, h.2.2.2.1 100 (le_trans h.1 (by norm_num)) (by norm_num),
    h.2.2.2.2 200 (by omega)⟩

/-! ## C8 -/

/-- C8: the kernel entry call passes `argc = 4`, the literal element count
of the fixed `args` table (`"hello"`, the `hdrbuf` record at offset 0, the
`hdrbuf` record at offset 128, `"root=/dev/n64cart"`), an `envp` table that
is a single NULL terminator, and NULL as the reserved fourth argument. -/
theorem control_transfer_convention :
    controlTransferCall.argc = 4 ∧
    controlTransferCall.argc = args.length ∧
    controlTransferCall.argv =
      [ArgPtr.lit "hello", ArgPtr.hdr 0, ArgPtr.hdr 128, ArgPtr.lit "root=/dev/n64cart"] ∧
    controlTransferCall.envp = [ArgPtr.null] ∧
    controlTransferCall.reserved = ArgPtr.null :=
  ⟨rfl, rfl, rfl, rfl, rfl⟩

/-! ## C9 -/

/-- The byte-swapped 32-bit value, written least-significant byte first,
reads back big-endian as the original value. -/
theorem beValue_leBytes_bswap (x : Nat) (hx : x < 0x100000000) :
    beValue (leBytes4 (bswap32 x)) = x := by
  obtain ⟨b0, b1, b2, b3, hdec, h0, h1, h2, h3⟩ :
      ∃ b0 b1 b2 b3, x = b3 * 0x1000000 + b2 * 0x10000 + b1 * 0x100 + b0 ∧
        b0 < 256 ∧ b1 < 256 ∧ b2 < 256 ∧ b3 < 256 := by
    exact ⟨x % 256, x / 0x100 % 256, x / 0x10000 % 256, x / 0x1000000 % 256,
      by omega, by omega, by omega, by omega, by omega⟩
  have hsw : bswap32 x = b0 * 0x1000000 + b1 * 0x10000 + b2 * 0x100 + b3 := by
    unfold bswap32
    omega
  have hb : leBytes4 (b0 * 0x1000000 + b1 * 0x10000 + b2 * 0x100 + b3) = [b3, b2, b1, b0] := by
    unfold leBytes4
    have d1 : (b0 * 0x1000000 + b1 * 0x10000 + b2 * 0x100 + b3) / 0x100 =
        b0 * 0x10000 + b1 * 0x100 + b2 := by omega
    have d2 : (b0 * 0x1000000 + b1 * 0x10000 + b2 * 0x100 + b3) / 0x10000 =
        b0 * 0x100 + b1 := by omega
    have d3 : (b0 * 0x1000000 + b1 * 0x10000 + b2 * 0x100 + b3) / 0x1000000 = b0 := by
      omega
    have e0 : (b0 * 0x1000000 + b1 * 0x10000 + b2 * 0x100 + b3) % 256 = b3 := by omega
    have e1 : (b0 * 0x10000 + b1 * 0x100 + b2) % 256 = b2 := by omega
    have e2 : (b0 * 0x100 + b1) % 256 = b1 := by omega
    have e3 : b0 % 256 = b0 := Nat.mod_eq_of_lt h0
    rw [d1, d2, d3, e0, e1, e2, e3]
  rw [hsw, hb]
  unfold beValue
  simp only [List.foldl]
  omega

/-- C9: for every file size (any nonnegative value a 64-bit `stat` can
report), the companion tool prints
`((fileSize + 4095) & ~4095) + 1048576` — the size padded up to a 4 KiB
boundary plus one MiB — and the optional 4-byte record holds the
byte-swapped 32-bit raw file size: read back big-endian it is exactly
`fileSize mod 2^32`. -/
theorem size2bin_outputs (fs : Nat) (h : fs + 4095 < 2 ^ 63) :
    paddedAllocSize fs = 4096 * ((fs + 4095) / 4096) + 1048576 ∧
    (sizeRecord fs).length = 4 ∧
    beValue (sizeRecord fs) = fs % 2 ^ 32 := by
  refine ⟨?_, rfl, ?_⟩
  · have h2 := roundUpMask 64 12 fs (by norm_num) (by omega)
    have e1 : (2 : Nat) ^ 12 - 1 = 4095 := by norm_num
    have e2 : (2 : Nat) ^ 64 - 2 ^ 12 = 0xFFFFFFFFFFFFF000 := by norm_num
    have e3 : (2 : Nat) ^ 12 = 4096 := by norm_num
    have e4 : (2 : Nat) ^ 64 = 0x10000000000000000 := by norm_num
    rw [e1, e2, e3, e4] at h2
    have hle : 4096 * ((fs + 4095) / 4096) ≤ fs + 4095 := by
      rw [Nat.mul_comm]; exact Nat.div_mul_le_self (fs + 4095) 4096
    have hmod : (4096 * ((fs + 4095) / 4096)) % 0x10000000000000000 =
        4096 * ((fs + 4095) / 4096) := Nat.mod_eq_of_lt (by omega)
    unfold paddedAllocSize
    rw [h2, hmod]
  · have e32 : (2 : Nat) ^ 32 = 0x100000000 := by norm_num
    rw [e32]
    exact beValue_leBytes_bswap (fs % 0x100000000) (Nat.mod_lt _ (by norm_num))

/-- Witness for C9 at `fileSize = 5000`: the printed allocation size is
`8192 + 1048576` and the 4-byte record reads back as 5000. -/
theorem size2bin_outputs_witness :
    5000 + 4095 < 2 ^ 63 ∧ paddedAllocSize 5000 = 1056768 ∧
    beValue (sizeRecord 5000) = 5000 := by
  have h := size2bin_outputs 5000 (by norm_num)
  refine ⟨by norm_num, ?_, ?_⟩
  · rw [h.1]
  · have := h.2.2
    rwa [show (5000 : Nat) % 2 ^ 32 = 5000 by norm_num] at this

end N64Boot
